import Mathlib

/-!
Verification of the documentation-symbol inventory engine of `monty`
(`src/monty/exts/info/docs/_cog.py`).

The Python code is shallowly embedded: dictionaries become association
lists preserving insertion order (Python 3.7+ dict semantics), the
`DocCog` mutable attributes become a `DocState` record threaded through
the functions, and string manipulation is implemented structurally over
`List Char` so that every definition evaluates inside the kernel.
Python `str.lower` is modelled by ASCII lowering (`Char.toLower`), which
agrees with Python on all inputs used here.
-/

namespace Monty

/-- Python `s.split(sep)` for a single-character separator: the pieces
between occurrences of `sep`, keeping empty pieces. -/
def splitChar (sep : Char) : List Char → List (List Char)
  | [] => [[]]
  | c :: cs =>
    if c == sep then [] :: splitChar sep cs
    else
      match splitChar sep cs with
      | [] => [[c]]
      | p :: ps => (c :: p) :: ps

/-- Python `s.partition(sep)` for a single-character separator, returning
the text before the first occurrence and the text after it (both empty
tails when `sep` does not occur, as in Python where the claims only use
the first and third components). -/
def partitionChar (sep : Char) : List Char → List Char × List Char
  | [] => ([], [])
  | c :: cs =>
    if c == sep then ([], cs)
    else
      let r := partitionChar sep cs
      (c :: r.1, r.2)

/-- Python `s.split(sep)[1]` as used for `group.split(":")[1]` (e.g. the
`"class"` of `"py:class"`).  A group without a colon would raise
`IndexError` in Python; inventories always use `domain:role` keys, so the
fallback is never reached by the claims. -/
def pySplitIndex1 (sep : Char) (s : String) : String :=
  match splitChar sep s.toList with
  | _ :: second :: _ => String.mk second
  | _ => ""

/-- Python `s.partition("#")` projected to `(relative_url_path, symbol_id)`. -/
def pyPartitionHash (s : String) : String × String :=
  let r := partitionChar '#' s.toList
  (String.mk r.1, String.mk r.2)

/-- Python `s.rsplit(sep, 1)[0]` for a single-character separator:
everything before the last occurrence of `sep`, or all of `s` when `sep`
does not occur. -/
def pyRsplitFirst (sep : Char) (s : String) : String :=
  let parts := splitChar sep s.toList
  if parts.length ≤ 1 then s
  else String.mk (List.intercalate [sep] parts.dropLast)

/-- Python `str.lower` restricted to ASCII. -/
def strLower (s : String) : String :=
  String.mk (s.toList.map Char.toLower)

/-- Python `needle in hay` on lists of characters (contiguous substring). -/
def listContainsSub (needle : List Char) : List Char → Bool
  | [] => needle.isEmpty
  | c :: rest => needle.isPrefixOf (c :: rest) || listContainsSub needle rest

/-- Python `needle in hay` for strings. -/
def strContainsSub (needle hay : String) : Bool :=
  listContainsSub needle.toList hay.toList

/-- Python `sep in s` for a single character. -/
def strContainsChar (c : Char) (s : String) : Bool :=
  s.toList.any (· == c)

/-- An insertion-ordered dictionary with string keys, as Python `dict`. -/
abbrev ADict (α : Type) := List (String × α)

/-- Python `d.get(k)` / `d[k]`. -/
def aGet {α : Type} (d : ADict α) (k : String) : Option α :=
  (d.find? (fun p => p.1 == k)).map (fun p => p.2)

/-- Python `k in d`. -/
def aHas {α : Type} (d : ADict α) (k : String) : Bool :=
  d.any (fun p => p.1 == k)

/-- Python `d[k] = v`: replace in place when the key exists (keeping its
position), append otherwise. -/
def aSet {α : Type} (d : ADict α) (k : String) (v : α) : ADict α :=
  if aHas d k then d.map (fun p => if p.1 == k then (k, v) else p)
  else d ++ [(k, v)]

/-- Python `defaultdict(list)` append: `d[k].append(v)`. -/
def aAppendAt (d : ADict (List String)) (k : String) (v : String) :
    ADict (List String) :=
  match aGet d k with
  | some l => aSet d k (l ++ [v])
  | none => d ++ [(k, [v])]

/-- One parsed intersphinx inventory: `group → [(symbol_name, relative_doc_url)]`. -/
abbrev InventoryDict := List (String × List (String × String))

/-- The `DocItem` dataclass: one documented symbol's metadata (`_cog.py` lines 81-96).
The mutable `attributes` list is modelled as a field holding the children
as they were when appended (Python appends object references). -/
inductive DocItem : Type where
  | mk
    (package : String)
    (group : String)
    (base_url : String)
    (relative_url_path : String)
    (symbol_id : String)
    (symbol_name : String)
    (attributes : List DocItem)

def DocItem.package : DocItem → String
  | .mk p _ _ _ _ _ _ => p

def DocItem.group : DocItem → String
  | .mk _ g _ _ _ _ _ => g

def DocItem.base_url : DocItem → String
  | .mk _ _ b _ _ _ _ => b

def DocItem.relative_url_path : DocItem → String
  | .mk _ _ _ r _ _ _ => r

def DocItem.symbol_id : DocItem → String
  | .mk _ _ _ _ i _ _ => i

def DocItem.symbol_name : DocItem → String
  | .mk _ _ _ _ _ n _ => n

def DocItem.attributes : DocItem → List DocItem
  | .mk _ _ _ _ _ _ a => a

/-- The `doc_item.url` property: `base_url + relative_url_path`. -/
def DocItem.url (it : DocItem) : String :=
  it.base_url ++ it.relative_url_path

/-- Python `parent.attributes.append(child)` applied to one binding. -/
def DocItem.appendAttr : DocItem → DocItem → DocItem
  | .mk p g b r i n a, child => .mk p g b r i n (a ++ [child])

/-- The `DocCog` state touched by the Symbol Table Builder: `base_urls`,
the per-package symbol tables `doc_symbols_new`, and the rename ledger
`renamed_symbols` (a `defaultdict(list)`). -/
structure DocState where
  base_urls : ADict String
  doc_symbols_new : ADict (ADict DocItem)
  renamed_symbols : ADict (List String)

/-- The state of a freshly constructed cog. -/
def emptyState : DocState := ⟨[], [], []⟩

/-- Lookup through `ChainMap(*self.doc_symbols_new.values())`: the first
(per package-registration order) table containing the key wins. -/
def chainGet (maps : List (ADict DocItem)) (k : String) : Option DocItem :=
  match maps with
  | [] => none
  | m :: ms =>
    match aGet m k with
    | some v => some v
    | none => chainGet ms k

/-- The `doc_symbols_all` property: the unfiltered flattened view over all packages. -/
def doc_symbols_all (s : DocState) (k : String) : Option DocItem :=
  chainGet (s.doc_symbols_new.map (fun p => p.2)) k

/-- Line 322 of `_cog.py`: `setdefault` the package table, then store the
item under its canonical name. -/
def dsnInsert (outer : ADict (ADict DocItem)) (pkg k : String) (v : DocItem) :
    ADict (ADict DocItem) :=
  match aGet outer pkg with
  | some tbl => aSet outer pkg (aSet tbl k v)
  | none => outer ++ [(pkg, [(k, v)])]

/-- Line 406: `self.doc_symbols_new[package][new_name] = conflicting_symbol`, direct
indexing; Python would raise `KeyError` for an unregistered package, which
cannot happen because the conflicting item was found in that package's
table. -/
def dsnSet (outer : ADict (ADict DocItem)) (pkg k : String) (v : DocItem) :
    ADict (ADict DocItem) :=
  match aGet outer pkg with
  | some tbl => aSet outer pkg (aSet tbl k v)
  | none => outer

/-- The constant `FORCE_PREFIX_GROUPS` (`_cog.py` lines 42-49): symbols with a group in
this ordered tuple get the group prefixed on duplicates. -/
def FORCE_PREFIX_GROUPS : List String :=
  ["term", "label", "token", "doc", "pdbcommand", "2to3fixer"]

/-- The inner `rename` closure of `ensure_unique_symbol_name` (`_cog.py`
lines 391-409), factored to the top level with its captured context
(`item`, `package_name`, `group_name`, `symbol_name`) as parameters.
In the `rename_extant` branch the source re-reads
`self.doc_symbols_all[symbol_name]`; only `renamed_symbols` has changed
since the caller's lookup, so that read yields `item` again (the `getD
item` fallback is unreachable). -/
def renameSymbol (s : DocState) (item : DocItem)
    (package_name group_name symbol_name pfx : String)
    (rename_extant : Bool) : DocState × String :=
  let new_name := pfx ++ "." ++ symbol_name
  -- If there's still a conflict, qualify the name further.
  let new_name :=
    if (doc_symbols_all s new_name).isSome then
      if rename_extant then
        item.package ++ "." ++ item.group ++ "." ++ symbol_name
      else
        package_name ++ "." ++ group_name ++ "." ++ symbol_name
    else new_name
  let s1 : DocState :=
    { s with renamed_symbols := aAppendAt s.renamed_symbols symbol_name new_name }
  if rename_extant then
    -- Instead of renaming the current symbol, rename the conflicting one.
    let conflicting := (doc_symbols_all s1 symbol_name).getD item
    ({ s1 with
        doc_symbols_new :=
          dsnSet s1.doc_symbols_new conflicting.package new_name conflicting },
      symbol_name)
  else
    (s1, new_name)

/-- Method `DocCog.ensure_unique_symbol_name` (`_cog.py` lines 379-430).

`priority` stands for `PRIORITY_PACKAGES`.  Modelled from the spec: that
constant lives in the docs package `__init__` which is not under `src/`;
only membership of the incoming package in the fixed allow-list matters,
so it is passed as a parameter.  Returns the updated state and the name
to use for the incoming symbol. -/
def ensure_unique_symbol_name (priority : List String) (s : DocState)
    (package_name group_name symbol_name : String) : DocState × String :=
  match doc_symbols_all s symbol_name with
  | none => (s, symbol_name)
  | some item =>
    if package_name != item.package then
      if priority.contains package_name then
        renameSymbol s item package_name group_name symbol_name item.package true
      else
        renameSymbol s item package_name group_name symbol_name package_name false
    else if FORCE_PREFIX_GROUPS.contains group_name then
      let needs_moving :=
        if FORCE_PREFIX_GROUPS.contains item.group then
          decide (FORCE_PREFIX_GROUPS.indexOf group_name
            < FORCE_PREFIX_GROUPS.indexOf item.group)
        else false
      renameSymbol s item package_name group_name symbol_name
        (if needs_moving then item.group else group_name) needs_moving
    else
      renameSymbol s item package_name group_name symbol_name item.group true

/-- Lines 329-332 of `update_single`: when the text before the canonical
name's last dot names an existing entry of the same package, append the
new entry to that parent's `attributes`. -/
def attachToParent (s : DocState) (package_name : String) (doc_item : DocItem)
    (symbol_name : String) : DocState :=
  match aGet ((aGet s.doc_symbols_new package_name).getD [])
      (pyRsplitFirst '.' symbol_name) with
  | some parent =>
    if parent.package == package_name then
      { s with
          doc_symbols_new :=
            dsnSet s.doc_symbols_new package_name
              (pyRsplitFirst '.' symbol_name) (parent.appendAttr doc_item) }
    else s
  | none => s

/-- The body of the inner loop of `DocCog.update_single` (`_cog.py` lines
302-333) for one `(symbol_name, relative_doc_url)` pair of one group.
The `blacklist_guilds` bookkeeping mutates the module-level `BLACKLIST`
registry, not the symbol table, and is not modelled. -/
def processSymbol (priority : List String) (package_name base_url group : String)
    (s : DocState) (entry : String × String) : DocState :=
  let symbol_name0 := entry.1
  let relative_doc_url := entry.2
  -- e.g. get 'class' from 'py:class'
  let group_name := pySplitIndex1 ':' group
  let r := ensure_unique_symbol_name priority s package_name group_name symbol_name0
  let s := r.1
  let symbol_name := r.2
  let pr := pyPartitionHash relative_doc_url
  let doc_item : DocItem :=
    .mk package_name group_name base_url pr.1 pr.2 symbol_name []
  let s : DocState :=
    { s with doc_symbols_new := dsnInsert s.doc_symbols_new package_name symbol_name doc_item }
  attachToParent s package_name doc_item symbol_name

/-- Method `DocCog.update_single` (`_cog.py` lines 283-335): merge one package's
parsed inventory into the tables. -/
def update_single (priority : List String) (s : DocState)
    (package_name base_url : String) (inventory : InventoryDict) : DocState :=
  let s : DocState := { s with base_urls := aSet s.base_urls package_name base_url }
  inventory.foldl
    (fun s gi => gi.2.foldl (processSymbol priority package_name base_url gi.1) s)
    s

/-- The symbol table of one package, defaulting to empty. -/
def pkgTable (s : DocState) (pkg : String) : ADict DocItem :=
  (aGet s.doc_symbols_new pkg).getD []

/-! ### Concrete disambiguation scenarios

`alpha` registers `Widget` (group `class`) first, then `beta` registers
the same name.  `sPrioIncoming` is the run where the incoming package
`beta` is on the priority list; `sPrioExisting` is the run where instead
`alpha` (and not `beta`) is on the priority list. -/

def alphaWidget : InventoryDict := [("py:class", [("Widget", "a.html#wa")])]

def betaWidget : InventoryDict := [("py:class", [("Widget", "b.html#wb")])]

def sPrioIncoming : DocState :=
  update_single ["beta"]
    (update_single ["beta"] emptyState "alpha" "ua/" alphaWidget)
    "beta" "ub/" betaWidget

def sPrioExisting : DocState :=
  update_single ["alpha"]
    (update_single ["alpha"] emptyState "alpha" "ua/" alphaWidget)
    "beta" "ub/" betaWidget

/-- A single-symbol inventory registered once and twice for package `p`. -/
def fooInventory : InventoryDict := [("py:class", [("foo", "f.html#foo")])]

def sFooOnce : DocState := update_single [] emptyState "p" "u/" fooInventory

def sFooTwice : DocState := update_single [] sFooOnce "p" "u/" fooInventory

/-- Same source `g` registering `Foo` twice under the same low-priority
group `label` (a tie in `FORCE_PREFIX_GROUPS` positions). -/
def sLabelTie : DocState :=
  update_single [] emptyState "g" "u/"
    [("py:label", [("Foo", "one.html#f1"), ("Foo", "two.html#f2")])]

/-- The clears performed by `refresh_inventories` before rebuilding
(`_cog.py` lines 461-463): `base_urls`, `doc_symbols_new` and
`renamed_symbols` are emptied. -/
def clearTables (_s : DocState) : DocState :=
  { base_urls := [], doc_symbols_new := [], renamed_symbols := [] }

/-- Python `s.split(sep, maxsplit=1)[0]`: the text before the first
occurrence of `sep` (all of `s` when `sep` does not occur). -/
def pySplitIndex0 (sep : Char) (s : String) : String :=
  match splitChar sep s.toList with
  | p :: _ => String.mk p
  | [] => s

/-- Method `DocCog.get_symbol_item` (`_cog.py` lines 502-514): look the name up
in the unfiltered flattened view; on a miss, when the name contains a
space, retry with the first space-separated word and return that word. -/
def get_symbol_item (s : DocState) (symbol_name : String) :
    String × Option DocItem :=
  let doc_item := doc_symbols_all s symbol_name
  if doc_item.isNone && strContainsChar ' ' symbol_name then
    let symbol_name1 := pySplitIndex0 ' ' symbol_name
    (symbol_name1, doc_symbols_all s symbol_name1)
  else
    (symbol_name, doc_item)

/-- The constant `FETCH_RESCHEDULE_DELAY` (`_cog.py` line 52): retry delays in minutes. -/
structure FetchRescheduleDelay where
  first : Nat
  repeated : Nat

def FETCH_RESCHEDULE_DELAY : FetchRescheduleDelay := ⟨2, 5⟩

/-- Python `inventory_url.removesuffix("/")`. -/
def pyRemoveSuffixSlash (s : String) : String :=
  let cs := s.toList
  if cs.getLast? == some '/' then String.mk cs.dropLast else s

/-- Method `DocCog.base_url_from_inventory_url` (`_cog.py` lines 869-872). -/
def base_url_from_inventory_url (inventory_url : String) : String :=
  pyRsplitFirst '/' (pyRemoveSuffixSlash inventory_url) ++ "/"

/-- The outcome of one `fetch_inventory` call: `InvalidHeaderError`
raised, or a returned value (`None` on transient failure, otherwise the
parsed inventory; an *empty* inventory is also falsy for the
`if not package:` check).  Modelled from the spec: `fetch_inventory`
(docs/_inventory_parser.py) is not under src/, so its outcome is passed
as a parameter. -/
inductive FetchOutcome where
  | invalidHeader
  | fetched (package : Option InventoryDict)

/-- The value `delay * 60` given to `schedule_later` (line 363). -/
def rescheduleDelaySeconds (inScheduler : Bool) : Nat :=
  (if inScheduler then FETCH_RESCHEDULE_DELAY.repeated
   else FETCH_RESCHEDULE_DELAY.first) * 60

/-- Method `DocCog.update_or_reschedule_inventory` (`_cog.py` lines 337-377).
`inScheduler` is the membership test `api_package_name in
self.inventory_scheduler`; the Scheduler class (monty/utils/scheduling.py)
is not under src/.  Returns the new table state together with the
scheduled retry delay in seconds, when one was scheduled.  The
`blacklist_guilds` computation touches only the module-level guild
blacklist and is not modelled. -/
def update_or_reschedule_inventory (priority : List String) (s : DocState)
    (inScheduler : Bool) (api_package_name base_url inventory_url : String)
    (outcome : FetchOutcome) : DocState × Option Nat :=
  match outcome with
  | .invalidHeader =>
    -- Do not reschedule if the header is invalid (logged as a warning).
    (s, none)
  | .fetched none => (s, some (rescheduleDelaySeconds inScheduler))
  | .fetched (some inv) =>
    if inv.isEmpty then (s, some (rescheduleDelaySeconds inScheduler))
    else
      let base_url :=
        if base_url == "" then base_url_from_inventory_url inventory_url
        else base_url
      (update_single priority s api_package_name base_url inv, none)

/-- The delays (in seconds) scheduled by `n` consecutive transient
failures for one source.  Modelled from the spec (§4.3) and the Scheduler
contract: once `schedule_later` has registered the retry for a package,
the package is a member of the scheduler when that retry attempt runs, so
every attempt after the first passes `inScheduler = true`. -/
def retryDelays (priority : List String) (s : DocState) (p b u : String) :
    Nat → Bool → List Nat
  | 0, _ => []
  | Nat.succ n, inSched =>
    match update_or_reschedule_inventory priority s inSched p b u
        (.fetched none) with
    | (_, some d) => d :: retryDelays priority s p b u n true
    | (_, none) => []

/-- One refresh cycle's merge phase: `refresh_inventories` runs
`update_or_reschedule_inventory` for every registered source.  The
`asyncio.gather` of independent coroutines over a single-threaded loop is
modelled as a fold in source order; the scheduler is empty for every
source because `cancel_all` ran first (line 459). -/
def mergeSources (priority : List String) (s : DocState)
    (sources : List (String × String × String × FetchOutcome)) : DocState :=
  sources.foldl
    (fun s q =>
      (update_or_reschedule_inventory priority s false q.1 q.2.1 q.2.2.1
        q.2.2.2).1)
    s

/-! ### The children/package invariant (claim C9)

`stateOK` says that every entry stored in any package table only has
children of its own package.  It is preserved by `update_single`: the
append at lines 329-332 is guarded by `parent.package == package_name`
and the appended child's package is `package_name`. -/

/-- Every child in this entry's `attributes` has the entry's package. -/
def itemOK (it : DocItem) : Prop :=
  ∀ c ∈ it.attributes, c.package = it.package

/-- Every entry of one package table satisfies `itemOK`. -/
def tableOK (tbl : ADict DocItem) : Prop :=
  ∀ q ∈ tbl, itemOK q.2

/-- Every package table of the state satisfies `tableOK`. -/
def stateOK (s : DocState) : Prop :=
  ∀ q ∈ s.doc_symbols_new, tableOK q.2

theorem aGet_mem {α : Type} {d : ADict α} {k : String} {v : α}
    (h : aGet d k = some v) : ∃ k2, (k2, v) ∈ d := by
  unfold aGet at h
  cases hf : d.find? (fun p => p.1 == k) with
  | none => rw [hf] at h; simp at h
  | some pr =>
    rw [hf] at h
    simp at h
    refine ⟨pr.1, ?_⟩
    have he : pr = (pr.1, v) := by rw [← h]
    exact he ▸ List.mem_of_find?_eq_some hf

theorem chainGet_mem {maps : List (ADict DocItem)} {k : String} {v : DocItem}
    (h : chainGet maps k = some v) : ∃ m ∈ maps, ∃ k2, (k2, v) ∈ m := by
  induction maps with
  | nil => simp [chainGet] at h
  | cons m ms ih =>
    rw [chainGet] at h
    cases hm : aGet m k with
    | some w =>
      rw [hm] at h
      exact ⟨m, List.mem_cons_self m ms,
        Option.some_inj.mp h ▸ aGet_mem hm⟩
    | none =>
      rw [hm] at h
      obtain ⟨m2, hm2, hk⟩ := ih h
      exact ⟨m2, List.mem_cons_of_mem m hm2, hk⟩

theorem mem_aSet {α : Type} {d : ADict α} {k : String} {v : α}
    {q : String × α} (h : q ∈ aSet d k v) : q = (k, v) ∨ q ∈ d := by
  unfold aSet at h
  by_cases hc : aHas d k = true
  · rw [if_pos hc] at h
    obtain ⟨p, hp, hpq⟩ := List.mem_map.mp h
    by_cases hk : (p.1 == k) = true
    · rw [if_pos hk] at hpq
      exact Or.inl hpq.symm
    · rw [if_neg hk] at hpq
      exact Or.inr (hpq ▸ hp)
  · rw [if_neg hc] at h
    rcases List.mem_append.mp h with h | h
    · exact Or.inr h
    · exact Or.inl (List.mem_singleton.mp h)

theorem tableOK_aSet {tbl : ADict DocItem} {k : String} {v : DocItem}
    (h : tableOK tbl) (hv : itemOK v) : tableOK (aSet tbl k v) := by
  intro q hq
  rcases mem_aSet hq with hq | hq
  · rw [hq]
    exact hv
  · exact h q hq

theorem tableOK_of_aGet {outer : ADict (ADict DocItem)} {pkg : String}
    {tbl : ADict DocItem} (h : ∀ q ∈ outer, tableOK q.2)
    (hg : aGet outer pkg = some tbl) : tableOK tbl := by
  obtain ⟨k2, hk2⟩ := aGet_mem hg
  exact h (k2, tbl) hk2

theorem stateOK_dsnInsert {outer : ADict (ADict DocItem)} {pkg k : String}
    {v : DocItem} (h : ∀ q ∈ outer, tableOK q.2) (hv : itemOK v) :
    ∀ q ∈ dsnInsert outer pkg k v, tableOK q.2 := by
  intro q hq
  unfold dsnInsert at hq
  cases hg : aGet outer pkg with
  | some tbl =>
    rw [hg] at hq
    rcases mem_aSet hq with hq | hq
    · rw [hq]
      exact tableOK_aSet (tableOK_of_aGet h hg) hv
    · exact h q hq
  | none =>
    rw [hg] at hq
    rcases List.mem_append.mp hq with hq | hq
    · exact h q hq
    · rw [List.mem_singleton.mp hq]
      intro q2 hq2
      rw [List.mem_singleton.mp hq2]
      exact hv

theorem stateOK_dsnSet {outer : ADict (ADict DocItem)} {pkg k : String}
    {v : DocItem} (h : ∀ q ∈ outer, tableOK q.2) (hv : itemOK v) :
    ∀ q ∈ dsnSet outer pkg k v, tableOK q.2 := by
  intro q hq
  unfold dsnSet at hq
  cases hg : aGet outer pkg with
  | some tbl =>
    rw [hg] at hq
    rcases mem_aSet hq with hq | hq
    · rw [hq]
      exact tableOK_aSet (tableOK_of_aGet h hg) hv
    · exact h q hq
  | none =>
    rw [hg] at hq
    exact h q hq

theorem doc_symbols_all_itemOK {s : DocState} {k : String} {v : DocItem}
    (h : stateOK s) (hg : doc_symbols_all s k = some v) : itemOK v := by
  obtain ⟨m, hm, k2, hk2⟩ := chainGet_mem hg
  obtain ⟨q, hq, hqm⟩ := List.mem_map.mp hm
  exact h q hq (k2, v) (hqm ▸ hk2)

theorem DocItem.appendAttr_package (it c : DocItem) :
    (it.appendAttr c).package = it.package := by
  cases it
  rfl

theorem DocItem.appendAttr_attributes (it c : DocItem) :
    (it.appendAttr c).attributes = it.attributes ++ [c] := by
  cases it
  rfl

theorem itemOK_appendAttr {parent c : DocItem} (h : itemOK parent)
    (hc : c.package = parent.package) : itemOK (parent.appendAttr c) := by
  intro x hx
  rw [DocItem.appendAttr_attributes] at hx
  rw [DocItem.appendAttr_package]
  rcases List.mem_append.mp hx with hx | hx
  · exact h x hx
  · rw [List.mem_singleton.mp hx]
    exact hc

theorem stateOK_renameSymbol {s : DocState} {item : DocItem}
    {p g n pfx : String} {ext : Bool}
    (h : stateOK s) (hfind : doc_symbols_all s n = some item) :
    stateOK (renameSymbol s item p g n pfx ext).1 := by
  have hconf : ∀ rn : ADict (List String),
      itemOK ((doc_symbols_all
        { base_urls := s.base_urls, doc_symbols_new := s.doc_symbols_new,
          renamed_symbols := rn } n).getD item) := by
    intro rn
    have hsame :
        doc_symbols_all
          { base_urls := s.base_urls, doc_symbols_new := s.doc_symbols_new,
            renamed_symbols := rn } n = some item := hfind
    rw [hsame]
    exact doc_symbols_all_itemOK h hfind
  unfold renameSymbol
  cases ext with
  | true => exact fun q hq => stateOK_dsnSet h (hconf _) q hq
  | false => exact fun q hq => h q hq

theorem itemOK_mk_nil (p g b r i n : String) :
    itemOK (DocItem.mk p g b r i n []) := by
  intro c hc
  simp [DocItem.attributes] at hc

theorem stateOK_ensure_unique (priority : List String) (s : DocState)
    (p g n : String) (h : stateOK s) :
    stateOK (ensure_unique_symbol_name priority s p g n).1 := by
  unfold ensure_unique_symbol_name
  split
  · exact h
  · rename_i item hfind
    split
    · split
      · exact stateOK_renameSymbol h hfind
      · exact stateOK_renameSymbol h hfind
    · split
      · exact stateOK_renameSymbol h hfind
      · exact stateOK_renameSymbol h hfind

theorem stateOK_attachToParent (s : DocState) (pkg : String) (di : DocItem)
    (n : String) (h : stateOK s) (hdi : di.package = pkg) :
    stateOK (attachToParent s pkg di n) := by
  unfold attachToParent
  split
  · rename_i parent hpar
    split
    · rename_i hb
      have hpe : parent.package = pkg := by simpa using hb
      have hparOK : itemOK parent := by
        cases hgt : aGet s.doc_symbols_new pkg with
        | none =>
          rw [hgt] at hpar
          simp [aGet] at hpar
        | some tbl =>
          rw [hgt] at hpar
          simp only [Option.getD_some] at hpar
          obtain ⟨k2, hk2⟩ := aGet_mem hpar
          exact tableOK_of_aGet h hgt (k2, parent) hk2
      exact fun q hq => stateOK_dsnSet h
        (itemOK_appendAttr hparOK (by rw [hdi, hpe])) q hq
    · exact h
  · exact h

theorem stateOK_processSymbol (priority : List String)
    (pkg bUrl grp : String) (s : DocState) (entry : String × String)
    (h : stateOK s) : stateOK (processSymbol priority pkg bUrl grp s entry) := by
  unfold processSymbol
  have h1 := stateOK_ensure_unique priority s pkg (pySplitIndex1 ':' grp)
    entry.1 h
  apply stateOK_attachToParent
  · exact fun q hq =>
      stateOK_dsnInsert h1 (itemOK_mk_nil _ _ _ _ _ _) q hq
  · rfl

theorem foldl_preserves {α β : Type} (P : α → Prop) (f : α → β → α)
    (hf : ∀ a b, P a → P (f a b)) :
    ∀ (l : List β) (a : α), P a → P (l.foldl f a) := by
  intro l
  induction l with
  | nil => exact fun a ha => ha
  | cons b bs ih =>
    intro a ha
    exact ih (f a b) (hf a b ha)

/-! ### Consistency Gate (claim C5)

`refresh_inventories` (lines 454-500) clears `refresh_event`, waits on
`symbol_get_event` until no reader holds it, rebuilds the tables (one
`update_single` per successfully fetched source), and finally sets
`refresh_event` again.  `create_symbol_embed` (lines 560-565) checks
`refresh_event` (waiting when it is cleared) and then enters
`symbol_get_event` and performs all of its symbol-table reads with no
suspension point in between.

`SharedEvent` (monty/utils/lock.py) and the asyncio loop are not under
src/.  Modelled from the spec (§4.4, §5): execution is a single-threaded
interleaving of atomic segments between suspension points; entering
`with symbol_get_event` increments an in-flight reader count which the
writer's `wait()` requires to be zero; a reader that finds
`refresh_event` cleared cannot proceed until it is set again. -/

/-- One source's rebuild job: package name, base url, fetched inventory. -/
abbrev PkgJob := String × String × InventoryDict

/-- Merging one job during the rebuild. -/
def applyJob (priority : List String) (s : DocState) (j : PkgJob) : DocState :=
  update_single priority s j.1 j.2.1 j.2.2

/-- The writer's program counter: before the refresh, waiting for the
readers to drain, rebuilding with the pending jobs, or finished. -/
inductive WriterPC where
  | idle
  | waitDrain
  | rebuild (pending : List PkgJob)
  | done

/-- A reader's program counter; `admitted` and `finished` record the
table the reader read when it was admitted (the synchronous segment that
enters `symbol_get_event` performs all the table reads). -/
inductive ReaderPC where
  | init
  | admitted (snap : DocState)
  | finished (snap : DocState)

/-- The shared state: the admission flag `refresh_event`, the symbol
table, the writer, and the readers. -/
structure GateConfig where
  eventSet : Bool
  table : DocState
  writer : WriterPC
  readers : List ReaderPC

def isAdmitted : ReaderPC → Bool
  | .admitted _ => true
  | _ => false

/-- The `symbol_get_event` in-flight reader count. -/
def activeReaders (c : GateConfig) : Nat :=
  (c.readers.filter isAdmitted).length

/-- One interleaving step of the gate protocol. -/
inductive GateStep (priority : List String) (jobs : List PkgJob) :
    GateConfig → GateConfig → Prop where
  | readerAdmit (c : GateConfig) (i : Nat) :
      c.readers.get? i = some .init → c.eventSet = true →
      GateStep priority jobs c
        { c with readers := c.readers.set i (.admitted c.table) }
  | readerFinish (c : GateConfig) (i : Nat) (snap : DocState) :
      c.readers.get? i = some (.admitted snap) →
      GateStep priority jobs c
        { c with readers := c.readers.set i (.finished snap) }
  | writerClose (c : GateConfig) :
      c.writer = .idle →
      GateStep priority jobs c
        { c with writer := .waitDrain, eventSet := false }
  | writerDrain (c : GateConfig) :
      c.writer = .waitDrain → activeReaders c = 0 →
      GateStep priority jobs c
        { c with writer := .rebuild jobs, table := emptyState }
  | writerStep (c : GateConfig) (j : PkgJob) (rest : List PkgJob) :
      c.writer = .rebuild (j :: rest) →
      GateStep priority jobs c
        { c with writer := .rebuild rest,
                 table := applyJob priority c.table j }
  | writerOpen (c : GateConfig) :
      c.writer = .rebuild [] →
      GateStep priority jobs c { c with writer := .done, eventSet := true }

/-- The start configuration: admission open, table `t0`, `n` readers. -/
def initConfig (t0 : DocState) (n : Nat) : GateConfig :=
  ⟨true, t0, .idle, List.replicate n .init⟩

def Reachable (priority : List String) (jobs : List PkgJob) (t0 : DocState)
    (n : Nat) (c : GateConfig) : Prop :=
  Relation.ReflTransGen (GateStep priority jobs) (initConfig t0 n) c

/-- The fully rebuilt table. -/
def finalTable (priority : List String) (jobs : List PkgJob) : DocState :=
  jobs.foldl (applyJob priority) emptyState

/-- The inductive invariant of the gate protocol. -/
def GateInv (priority : List String) (jobs : List PkgJob) (t0 : DocState)
    (c : GateConfig) : Prop :=
  (c.writer = .idle →
    c.eventSet = true ∧ c.table = t0 ∧
    ∀ r ∈ c.readers, r = .init ∨ r = .admitted t0 ∨ r = .finished t0)
  ∧ (c.writer = .waitDrain →
    c.eventSet = false ∧ c.table = t0 ∧
    ∀ r ∈ c.readers, r = .init ∨ r = .admitted t0 ∨ r = .finished t0)
  ∧ (∀ rest, c.writer = .rebuild rest →
    c.eventSet = false ∧
    (∃ pre, pre ++ rest = jobs ∧
      c.table = pre.foldl (applyJob priority) emptyState) ∧
    ∀ r ∈ c.readers, r = .init ∨ r = .finished t0)
  ∧ (c.writer = .done →
    c.eventSet = true ∧ c.table = finalTable priority jobs ∧
    ∀ r ∈ c.readers,
      r = .init ∨ r = .admitted (finalTable priority jobs)
        ∨ r = .finished t0 ∨ r = .finished (finalTable priority jobs))

theorem gateInv_init (priority : List String) (jobs : List PkgJob)
    (t0 : DocState) (n : Nat) : GateInv priority jobs t0 (initConfig t0 n) := by
  refine ⟨fun _ => ⟨rfl, rfl, ?_⟩, fun h => ?_, fun rest h => ?_, fun h => ?_⟩
  · intro r hr
    exact Or.inl (List.eq_of_mem_replicate hr)
  · cases h
  · cases h
  · cases h

theorem gateStep_inv {priority : List String} {jobs : List PkgJob}
    {t0 : DocState} {c c2 : GateConfig}
    (hinv : GateInv priority jobs t0 c)
    (hstep : GateStep priority jobs c c2) :
    GateInv priority jobs t0 c2 := by
  obtain ⟨hIdle, hWait, hReb, hDone⟩ := hinv
  cases hstep with
  | readerAdmit i hget hev =>
    refine ⟨fun hw => ?_, fun hw => ?_, fun rest hw => ?_, fun hw => ?_⟩
    · obtain ⟨he, ht, hrd⟩ := hIdle hw
      refine ⟨he, ht, fun r hr => ?_⟩
      rcases List.mem_or_eq_of_mem_set hr with hr | hr
      · exact hrd r hr
      · rw [hr, ht]
        exact Or.inr (Or.inl rfl)
    · obtain ⟨he, _, _⟩ := hWait hw
      rw [hev] at he
      cases he
    · obtain ⟨he, _, _⟩ := hReb rest hw
      rw [hev] at he
      cases he
    · obtain ⟨he, ht, hrd⟩ := hDone hw
      refine ⟨he, ht, fun r hr => ?_⟩
      rcases List.mem_or_eq_of_mem_set hr with hr | hr
      · exact hrd r hr
      · rw [hr, ht]
        exact Or.inr (Or.inl rfl)
  | readerFinish i snap hget =>
    have hmem : ReaderPC.admitted snap ∈ c.readers := List.get?_mem hget
    refine ⟨fun hw => ?_, fun hw => ?_, fun rest hw => ?_, fun hw => ?_⟩
    · obtain ⟨he, ht, hrd⟩ := hIdle hw
      have hsnap : snap = t0 := by
        rcases hrd _ hmem with h | h | h
        · cases h
        · injection h
        · cases h
      refine ⟨he, ht, fun r hr => ?_⟩
      rcases List.mem_or_eq_of_mem_set hr with hr | hr
      · exact hrd r hr
      · rw [hr, hsnap]
        exact Or.inr (Or.inr rfl)
    · obtain ⟨he, ht, hrd⟩ := hWait hw
      have hsnap : snap = t0 := by
        rcases hrd _ hmem with h | h | h
        · cases h
        · injection h
        · cases h
      refine ⟨he, ht, fun r hr => ?_⟩
      rcases List.mem_or_eq_of_mem_set hr with hr | hr
      · exact hrd r hr
      · rw [hr, hsnap]
        exact Or.inr (Or.inr rfl)
    · obtain ⟨he, ht, hrd⟩ := hReb rest hw
      rcases hrd _ hmem with h | h
      · cases h
      · cases h
    · obtain ⟨he, ht, hrd⟩ := hDone hw
      have hsnap : snap = finalTable priority jobs := by
        rcases hrd _ hmem with h | h | h | h
        · cases h
        · injection h
        · cases h
        · cases h
      refine ⟨he, ht, fun r hr => ?_⟩
      rcases List.mem_or_eq_of_mem_set hr with hr | hr
      · exact hrd r hr
      · rw [hr, hsnap]
        exact Or.inr (Or.inr (Or.inr rfl))
  | writerClose hcw =>
    obtain ⟨he, ht, hrd⟩ := hIdle hcw
    refine ⟨fun hw => ?_, fun _ => ⟨rfl, ht, hrd⟩, fun rest hw => ?_,
      fun hw => ?_⟩
    · cases hw
    · cases hw
    · cases hw
  | writerDrain hcw hcount =>
    obtain ⟨he, ht, hrd⟩ := hWait hcw
    have hnoadm : ∀ r ∈ c.readers, isAdmitted r = false := by
      have hfil : c.readers.filter isAdmitted = [] :=
        List.length_eq_zero.mp hcount
      intro r hr
      rcases hfa : isAdmitted r with _ | _
      · rfl
      · exfalso
        have : r ∈ c.readers.filter isAdmitted :=
          List.mem_filter.mpr ⟨hr, hfa⟩
        rw [hfil] at this
        cases this
    refine ⟨fun hw => ?_, fun hw => ?_, fun rest hw => ?_, fun hw => ?_⟩
    · cases hw
    · cases hw
    · have hrest : rest = jobs := by
        have : WriterPC.rebuild jobs = WriterPC.rebuild rest := hw
        injection this with h2
        exact h2.symm
      refine ⟨he, ⟨[], by simp [hrest], rfl⟩, fun r hr => ?_⟩
      rcases hrd r hr with h | h | h
      · exact Or.inl h
      · exfalso
        have := hnoadm r hr
        rw [h] at this
        cases this
      · exact Or.inr h
    · cases hw
  | writerStep j rest hcw =>
    obtain ⟨he, ⟨pre, hpre, htab⟩, hrd⟩ := hReb (j :: rest) hcw
    refine ⟨fun hw => ?_, fun hw => ?_, fun rest2 hw => ?_, fun hw => ?_⟩
    · cases hw
    · cases hw
    · have hrest : rest2 = rest := by
        have : WriterPC.rebuild rest = WriterPC.rebuild rest2 := hw
        injection this with h2
        exact h2.symm
      subst hrest
      refine ⟨he, ⟨pre ++ [j], ?_, ?_⟩, hrd⟩
      · rw [List.append_assoc]
        simpa using hpre
      · rw [List.foldl_append, List.foldl_cons, List.foldl_nil, htab]
    · cases hw
  | writerOpen hcw =>
    obtain ⟨he, ⟨pre, hpre, htab⟩, hrd⟩ := hReb [] hcw
    have hfin : c.table = finalTable priority jobs := by
      rw [List.append_nil] at hpre
      rw [htab, hpre]
      rfl
    refine ⟨fun hw => ?_, fun hw => ?_, fun rest hw => ?_, fun _ => ?_⟩
    · cases hw
    · cases hw
    · cases hw
    · refine ⟨rfl, hfin, fun r hr => ?_⟩
      rcases hrd r hr with h | h
      · exact Or.inl h
      · exact Or.inr (Or.inr (Or.inl h))

theorem reachable_inv {priority : List String} {jobs : List PkgJob}
    {t0 : DocState} {n : Nat} {c : GateConfig}
    (h : Reachable priority jobs t0 n c) : GateInv priority jobs t0 c := by
  induction h with
  | refl => exact gateInv_init priority jobs t0 n
  | tail _ hstep ih => exact gateStep_inv ih hstep

/-! ### Fuzzy Resolver (`_docs_autocomplete`, lines 759-781)

The base similarity scores come from `rapidfuzz.process.extract`; they
are floats in `[0, 100]` and enter this stage as opaque numbers: the
stage only adds the integer constants 50 and 20 to them and compares
them with each other and with the threshold, all of which are exact,
order-preserving operations, so the scores are modelled as integers.
`query` has already been `.strip()`-ed (line 740). -/

/-- The boost loop (lines 759-770): `+50` when the lower-cased candidate
equals `query` (as typed), `+20` when the lower-cased query is a
substring of the lower-cased candidate. -/
def tweakStage (fuzzed : List (String × ℤ)) (query : String) :
    List (String × ℤ) :=
  let lower_query := strLower query
  fuzzed.map (fun nv =>
    let lower := strLower nv.1
    let score := nv.2
    let score := if lower == query then score + 50 else score
    let score := if strContainsSub lower_query lower then score + 20 else score
    (nv.1, score))

/-- One insertion step of a stable descending sort: the inserted element
moves past an element only when that element's score is strictly
greater, so it is placed before the first element whose score is `≤` its
own — in particular before every later element with an equal score. -/
def insertDesc (x : String × ℤ) : List (String × ℤ) → List (String × ℤ)
  | [] => [x]
  | y :: ys => if x.2 < y.2 then y :: insertDesc x ys else x :: y :: ys

/-- Python `sorted(tweak, key=lambda v: v[1], reverse=True)` (line 772):
CPython's sort is stable — equal-scored candidates keep their extraction
order — and a stable descending sort's output is determined by the key
order, so this stable insertion sort computes exactly the same list
(descending order is `sorted_sortDesc`; stability on ties is
`sortDesc_filter_stable`: the equal-scored candidates of every score
appear in their original order). -/
def sortDesc : List (String × ℤ) → List (String × ℤ)
  | [] => []
  | x :: xs => insertDesc x (sortDesc xs)

/-- The result loop (lines 774-781): optionally prepend the query, then
append names until the first score below the threshold (`break`). -/
def resStage (tweak : List (String × ℤ)) (threshold : ℤ)
    (include_query : Bool) (query : String) : List String :=
  (if include_query then [query] else [])
    ++ (tweak.takeWhile (fun p => !(decide (p.2 < threshold)))).map
        (fun p => p.1)

/-- Lines 759-781 of `_docs_autocomplete` end to end. -/
def docsAutocompleteTail (fuzzed : List (String × ℤ)) (query : String)
    (threshold : ℤ) (include_query : Bool) : List String :=
  resStage (sortDesc (tweakStage fuzzed query)) threshold include_query query

/-- Descending order on scored candidates. -/
def scoreGE (a b : String × ℤ) : Prop := b.2 ≤ a.2

theorem mem_insertDesc (x a : String × ℤ) (l : List (String × ℤ)) :
    a ∈ insertDesc x l ↔ a = x ∨ a ∈ l := by
  induction l with
  | nil => simp [insertDesc]
  | cons y ys ih =>
    by_cases h : x.2 < y.2
    · simp only [insertDesc, if_pos h, List.mem_cons, ih]
      tauto
    · simp only [insertDesc, if_neg h, List.mem_cons]

theorem sorted_insertDesc (x : String × ℤ) (l : List (String × ℤ))
    (h : List.Sorted scoreGE l) : List.Sorted scoreGE (insertDesc x l) := by
  induction l with
  | nil => simp [insertDesc, List.Sorted]
  | cons y ys ih =>
    rw [List.sorted_cons] at h
    by_cases hlt : x.2 < y.2
    · rw [insertDesc, if_pos hlt, List.sorted_cons]
      refine ⟨fun b hb => ?_, ih h.2⟩
      rcases (mem_insertDesc x b ys).mp hb with hb | hb
      · exact hb ▸ le_of_lt hlt
      · exact h.1 b hb
    · rw [insertDesc, if_neg hlt, List.sorted_cons]
      push_neg at hlt
      refine ⟨fun b hb => ?_, List.sorted_cons.mpr h⟩
      rcases List.mem_cons.mp hb with hb | hb
      · exact hb ▸ hlt
      · exact le_trans (h.1 b hb) hlt

theorem sorted_sortDesc (l : List (String × ℤ)) :
    List.Sorted scoreGE (sortDesc l) := by
  induction l with
  | nil => simp [sortDesc, List.Sorted]
  | cons x xs ih => exact sorted_insertDesc x (sortDesc xs) ih

/-- Inserting `x` does not disturb the candidates of any other score. -/
theorem insertDesc_filter_ne (x : String × ℤ) (v : ℤ) (hx : x.2 ≠ v) :
    ∀ l : List (String × ℤ),
      (insertDesc x l).filter (fun p => decide (p.2 = v))
        = l.filter (fun p => decide (p.2 = v)) := by
  intro l
  induction l with
  | nil => simp [insertDesc, hx]
  | cons y ys ih =>
    by_cases hlt : x.2 < y.2
    · rw [insertDesc, if_pos hlt, List.filter_cons, List.filter_cons, ih]
    · rw [insertDesc, if_neg hlt, List.filter_cons]
      simp [hx]

/-- The inserted element lands ahead of every equal-scored element,
because it only moves past strictly greater scores. -/
theorem insertDesc_filter_eq (x : String × ℤ) :
    ∀ l : List (String × ℤ),
      (insertDesc x l).filter (fun p => decide (p.2 = x.2))
        = x :: l.filter (fun p => decide (p.2 = x.2)) := by
  intro l
  induction l with
  | nil => simp [insertDesc]
  | cons y ys ih =>
    by_cases hlt : x.2 < y.2
    · have hy : ¬ (y.2 = x.2) := fun he => by
        rw [he] at hlt
        exact lt_irrefl _ hlt
      rw [insertDesc, if_pos hlt, List.filter_cons, List.filter_cons]
      simp [hy, ih]
    · rw [insertDesc, if_neg hlt, List.filter_cons]
      simp

/-- Stability of `sortDesc`: for every score, the equal-scored
candidates appear in the output in exactly their input order (together
with `sorted_sortDesc` this pins the output down to CPython's stable
descending sort). -/
theorem sortDesc_filter_stable (v : ℤ) :
    ∀ l : List (String × ℤ),
      (sortDesc l).filter (fun p => decide (p.2 = v))
        = l.filter (fun p => decide (p.2 = v)) := by
  intro l
  induction l with
  | nil => rfl
  | cons x xs ih =>
    by_cases hx : x.2 = v
    · subst hx
      rw [sortDesc, insertDesc_filter_eq x (sortDesc xs), ih,
        List.filter_cons]
      simp
    · rw [sortDesc, insertDesc_filter_ne x v hx (sortDesc xs), ih,
        List.filter_cons]
      simp [hx]

/-- On a descending-sorted list, stopping at the first score below the
threshold (`break`) drops exactly the candidates below the threshold. -/
theorem takeWhile_eq_filter_of_sorted (th : ℤ) :
    ∀ l : List (String × ℤ), List.Sorted scoreGE l →
      l.takeWhile (fun p => !(decide (p.2 < th)))
        = l.filter (fun p => !(decide (p.2 < th))) := by
  intro l
  induction l with
  | nil => intro _; rfl
  | cons a l ih =>
    intro h
    rw [List.sorted_cons] at h
    by_cases ha : a.2 < th
    · have hnil : l.filter (fun p : String × ℤ => !(decide (p.2 < th))) = [] := by
        rw [List.filter_eq_nil_iff]
        intro b hb
        have hlt : b.2 < th := lt_of_le_of_lt (h.1 b hb) ha
        simp [hlt]
      simp [List.takeWhile_cons, List.filter_cons, ha, hnil]
    · simp [List.takeWhile_cons, List.filter_cons, ha, ih h.2]

end Monty

namespace MontyClaims
open Monty

/-- Claim C1 (code bug): uniqueness of canonical names in the flattened
view fails.  When the priority package `beta` registers `Widget` after
`alpha`, `rename` with `rename_extant` re-inserts `alpha`'s entry under
`alpha.Widget` but never deletes the old key, so `alpha`'s table still
maps `Widget` while `beta`'s table also maps `Widget`: two entries
produce the same canonical name, and the flattened view still serves
`alpha`'s entry under it. -/
theorem c1_uniqueness_fails :
    (aGet (pkgTable sPrioIncoming "alpha") "Widget").map DocItem.package
        = some "alpha"
      ∧ (aGet (pkgTable sPrioIncoming "alpha") "alpha.Widget").map DocItem.package
        = some "alpha"
      ∧ (aGet (pkgTable sPrioIncoming "beta") "Widget").map DocItem.package
        = some "beta"
      ∧ (doc_symbols_all sPrioIncoming "Widget").map DocItem.package
        = some "alpha" := by
  decide

/-- Claim C2 (code bug): the non-priority half of the scenario behaves as
claimed (`beta` renamed to `beta.Widget`, ledger `Widget → [beta.Widget]`,
`Widget` resolves to `alpha`), but in the priority half the name `Widget`
still resolves to `alpha`'s entry, not `beta`'s, because the old key is
never removed and the earlier-registered layer of the flattened view
wins. -/
theorem c2_priority_resolution_fails :
    ((aGet (pkgTable sPrioExisting "beta") "beta.Widget").map DocItem.package
        = some "beta"
      ∧ aGet sPrioExisting.renamed_symbols "Widget" = some ["beta.Widget"]
      ∧ (doc_symbols_all sPrioExisting "Widget").map DocItem.package
        = some "alpha")
    ∧ (aGet sPrioIncoming.renamed_symbols "Widget" = some ["alpha.Widget"]
      ∧ (doc_symbols_all sPrioIncoming "Widget").map DocItem.package
        = some "alpha"
      ∧ ¬ (doc_symbols_all sPrioIncoming "Widget").map DocItem.package
        = some "beta") := by
  decide

/-- Claim C3 counterexample: registering the identical single-entry
inventory for the same package twice in a row is not idempotent — the
second pass sees the first copy as a same-source conflict, re-inserts it
under `class.foo`, and appends `class.foo` to the rename ledger, which
was empty after the first pass. -/
theorem c3_not_idempotent :
    aGet sFooOnce.renamed_symbols "foo" = none
      ∧ aGet sFooTwice.renamed_symbols "foo" = some ["class.foo"]
      ∧ (aGet (pkgTable sFooOnce "p") "class.foo").isNone = true
      ∧ (aGet (pkgTable sFooTwice "p") "class.foo").isSome = true := by
  decide

/-- Claim C4 counterexample: on a tie of `FORCE_PREFIX_GROUPS` positions
(both entries in group `label`), the code renames the *incoming* entry
(the second `Foo`, from `two.html`, is stored as `label.Foo` while the
existing `Foo` from `one.html` keeps the short name), contradicting the
claim that ties rename the existing entry. -/
theorem c4_tie_renames_incoming :
    (aGet (pkgTable sLabelTie "g") "Foo").map DocItem.relative_url_path
        = some "one.html"
      ∧ (aGet (pkgTable sLabelTie "g") "label.Foo").map DocItem.relative_url_path
        = some "two.html"
      ∧ ¬ (aGet (pkgTable sLabelTie "g") "label.Foo").map DocItem.relative_url_path
        = some "one.html" := by
  decide

/-- Claim C9 counterexample: the parent key is `symbol_name.rsplit(".", 1)[0]`,
which for the undotted name `foo` is `foo` itself; the just-stored entry is
found as its own parent and appended to its own `attributes`, so an entry
whose canonical name is not a dotted path does get appended — to itself. -/
theorem c9_undotted_self_child :
    ((aGet (pkgTable sFooOnce "p") "foo").map
        (fun it => it.attributes.map DocItem.symbol_name)) = some ["foo"]
      ∧ strContainsChar '.' "foo" = false := by
  decide

/-- Claim C3 amended: `update_single` is deterministic, so re-registering
the same source with the identical inventory reproduces the identical
canonical name assignment and rename ledger *provided the tables are
cleared first*, as `refresh_inventories` does before every rebuild; it is
the uncleaned re-registration that the counterexample refutes. -/
theorem c3_amended_idempotent_after_clear :
    ∀ (priority : List String) (s : DocState) (p b : String)
      (inv : InventoryDict),
      update_single priority
          (clearTables (update_single priority (clearTables s) p b inv))
          p b inv
        = update_single priority (clearTables s) p b inv := by
  intro priority s p b inv
  rfl

/-- Claim C10: `get_symbol_item` returns the input name with the direct
lookup result when the name is found or has no space; on a miss for a
name containing a space it retries with the first space-separated word
and returns that word together with the second lookup's result. -/
theorem c10_get_symbol_item (s : DocState) (n : String) :
    ((doc_symbols_all s n).isSome = true →
        get_symbol_item s n = (n, doc_symbols_all s n))
    ∧ (doc_symbols_all s n = none → strContainsChar ' ' n = true →
        get_symbol_item s n
          = (pySplitIndex0 ' ' n, doc_symbols_all s (pySplitIndex0 ' ' n)))
    ∧ (doc_symbols_all s n = none → strContainsChar ' ' n = false →
        get_symbol_item s n = (n, none)) := by
  refine ⟨fun h1 => ?_, fun h1 h2 => ?_, fun h1 h2 => ?_⟩
  · have hni : (doc_symbols_all s n).isNone = false :=
      (Option.isNone_eq_false_iff _).mpr h1
    simp [get_symbol_item, hni]
  · simp [get_symbol_item, h1, h2]
  · simp [get_symbol_item, h1, h2]

/-- Claim C10 witness: a miss on `"a b"` retries with `"a"`. -/
theorem c10_witness : get_symbol_item emptyState "a b" = ("a", none) :=
  (c10_get_symbol_item emptyState "a b").2.1 rfl rfl

/-- Claim C7: over any run of consecutive transient fetch failures for
one source, the first retry is scheduled `FETCH_RESCHEDULE_DELAY.first`
minutes (120 seconds) later and every subsequent retry
`FETCH_RESCHEDULE_DELAY.repeated` minutes (300 seconds) later. -/
theorem c7_retry_delays :
    ∀ (priority : List String) (s : DocState) (p b u : String) (n : Nat),
      retryDelays priority s p b u (n + 1) false
        = 120 :: List.replicate n 300 := by
  intro priority s p b u n
  have hrep : ∀ m, retryDelays priority s p b u m true = List.replicate m 300 := by
    intro m
    induction m with
    | zero => rfl
    | succ k ih => simp [retryDelays, update_or_reschedule_inventory,
        rescheduleDelaySeconds, FETCH_RESCHEDULE_DELAY, List.replicate_succ, ih]
  simpa [retryDelays, update_or_reschedule_inventory, rescheduleDelaySeconds,
    FETCH_RESCHEDULE_DELAY] using hrep n

/-- Claim C8: an `InvalidHeaderError` outcome makes
`update_or_reschedule_inventory` return with no retry scheduled and the
symbol table untouched, and within a refresh cycle's merge such a source
contributes nothing: merging with it is merging without it, so the other
sources are unaffected. -/
theorem c8_invalid_header_isolated :
    (∀ (priority : List String) (s : DocState) (inSched : Bool)
        (p b u : String),
        update_or_reschedule_inventory priority s inSched p b u
            FetchOutcome.invalidHeader
          = (s, none))
    ∧ (∀ (priority : List String) (s : DocState) (p b u : String)
        (pre post : List (String × String × String × FetchOutcome)),
        mergeSources priority s
            (pre ++ (p, b, u, FetchOutcome.invalidHeader) :: post)
          = mergeSources priority s (pre ++ post)) := by
  constructor
  · intro priority s inSched p b u
    rfl
  · intro priority s p b u pre post
    induction pre generalizing s with
    | nil => simp [mergeSources, update_or_reschedule_inventory]
    | cons q rest ih => simpa [mergeSources] using ih _

/-- Claim C4 amended: in a same-source conflict with the incoming group
in `FORCE_PREFIX_GROUPS`, the entry whose group occupies the strictly
later position is renamed by prefixing that entry's own group name; on a
tie of positions (the groups are identical) the *incoming* entry, not the
existing one, is renamed.  The no-further-collision hypotheses keep the
produced name at the single prefix. -/
theorem c4_amended_group_precedence (priority : List String) (s : DocState)
    (p g n : String) (item : DocItem)
    (hfind : doc_symbols_all s n = some item)
    (hpkg : item.package = p)
    (hg : FORCE_PREFIX_GROUPS.contains g = true)
    (hig : FORCE_PREFIX_GROUPS.contains item.group = true)
    (hnc1 : doc_symbols_all s (item.group ++ "." ++ n) = none)
    (hnc2 : doc_symbols_all s (g ++ "." ++ n) = none) :
    (FORCE_PREFIX_GROUPS.indexOf g < FORCE_PREFIX_GROUPS.indexOf item.group →
      ensure_unique_symbol_name priority s p g n
        = ({ s with
              renamed_symbols :=
                aAppendAt s.renamed_symbols n (item.group ++ "." ++ n),
              doc_symbols_new :=
                dsnSet s.doc_symbols_new item.package (item.group ++ "." ++ n)
                  item },
            n))
    ∧ (FORCE_PREFIX_GROUPS.indexOf item.group ≤ FORCE_PREFIX_GROUPS.indexOf g →
      ensure_unique_symbol_name priority s p g n
        = ({ s with
              renamed_symbols :=
                aAppendAt s.renamed_symbols n (g ++ "." ++ n) },
            g ++ "." ++ n)) := by
  have hgm : g ∈ FORCE_PREFIX_GROUPS := by simpa using hg
  have higm : item.group ∈ FORCE_PREFIX_GROUPS := by simpa using hig
  simp only [doc_symbols_all] at hfind hnc1 hnc2
  constructor
  · intro hlt
    have hmov : decide (FORCE_PREFIX_GROUPS.indexOf g
        < FORCE_PREFIX_GROUPS.indexOf item.group) = true :=
      decide_eq_true hlt
    simp [ensure_unique_symbol_name, renameSymbol, doc_symbols_all, hfind,
      hpkg, hgm, higm, hmov, hnc1]
  · intro hle
    have hmov : decide (FORCE_PREFIX_GROUPS.indexOf g
        < FORCE_PREFIX_GROUPS.indexOf item.group) = false :=
      decide_eq_false (not_lt.mpr hle)
    simp [ensure_unique_symbol_name, renameSymbol, doc_symbols_all, hfind,
      hpkg, hgm, higm, hmov, hnc2]

/-- Supporting state for the C4 witness: one `label` entry `Foo` for
source `g`. -/
def sLabelOne : DocState :=
  update_single [] emptyState "g" "u/" [("py:label", [("Foo", "one.html#f1")])]

/-- The entry stored under `Foo` in `sLabelOne` (it was appended to its
own `attributes`, see the C9 counterexample). -/
def labelFooItem : DocItem :=
  .mk "g" "label" "u/" "one.html" "f1" "Foo"
    [.mk "g" "label" "u/" "one.html" "f1" "Foo" []]

/-- Claim C4 witness: the tie case at a concrete state — the incoming
`label` entry is renamed to `label.Foo`, only the ledger changes. -/
theorem c4_amended_witness :
    ensure_unique_symbol_name [] sLabelOne "g" "label" "Foo"
      = ({ sLabelOne with
            renamed_symbols :=
              aAppendAt sLabelOne.renamed_symbols "Foo" ("label" ++ "." ++ "Foo") },
          "label" ++ "." ++ "Foo") :=
  (c4_amended_group_precedence [] sLabelOne "g" "label" "Foo" labelFooItem
    rfl rfl rfl rfl rfl rfl).2 (le_refl _)

/-- Claim C5: in every reachable configuration of the gate protocol, a
reader's snapshot is either the pre-refresh table `t0` or the fully
rebuilt table — never a partially cleared or partially rebuilt one — and
a reader still inside the gate reads exactly the current table (the
writer cannot clear or rebuild while any reader is in flight, and
readers arriving after admission closes are blocked until the rebuild
has finished). -/
theorem c5_no_torn_reads (priority : List String) (jobs : List PkgJob)
    (t0 : DocState) (n : Nat) (c : GateConfig)
    (hreach : Reachable priority jobs t0 n c) :
    ∀ r ∈ c.readers, ∀ snap : DocState,
      (r = ReaderPC.admitted snap ∨ r = ReaderPC.finished snap) →
      (snap = t0 ∨ snap = finalTable priority jobs)
      ∧ (r = ReaderPC.admitted snap → snap = c.table) := by
  obtain ⟨hIdle, hWait, hReb, hDone⟩ := reachable_inv hreach
  intro r hr snap hshape
  rcases hshape with hs | hs
  · subst hs
    cases hw : c.writer with
    | idle =>
      obtain ⟨_, ht, hrd⟩ := hIdle hw
      rcases hrd _ hr with h | h | h
      · cases h
      · injection h with h2
        exact ⟨Or.inl h2, fun _ => h2.trans ht.symm⟩
      · cases h
    | waitDrain =>
      obtain ⟨_, ht, hrd⟩ := hWait hw
      rcases hrd _ hr with h | h | h
      · cases h
      · injection h with h2
        exact ⟨Or.inl h2, fun _ => h2.trans ht.symm⟩
      · cases h
    | rebuild rest =>
      obtain ⟨_, _, hrd⟩ := hReb rest hw
      rcases hrd _ hr with h | h <;> cases h
    | done =>
      obtain ⟨_, ht, hrd⟩ := hDone hw
      rcases hrd _ hr with h | h | h | h
      · cases h
      · injection h with h2
        exact ⟨Or.inr h2, fun _ => h2.trans ht.symm⟩
      · cases h
      · cases h
  · subst hs
    refine ⟨?_, fun habs => by cases habs⟩
    cases hw : c.writer with
    | idle =>
      obtain ⟨_, _, hrd⟩ := hIdle hw
      rcases hrd _ hr with h | h | h
      · cases h
      · cases h
      · injection h with h2
        exact Or.inl h2
    | waitDrain =>
      obtain ⟨_, _, hrd⟩ := hWait hw
      rcases hrd _ hr with h | h | h
      · cases h
      · cases h
      · injection h with h2
        exact Or.inl h2
    | rebuild rest =>
      obtain ⟨_, _, hrd⟩ := hReb rest hw
      rcases hrd _ hr with h | h
      · cases h
      · injection h with h2
        exact Or.inl h2
    | done =>
      obtain ⟨_, _, hrd⟩ := hDone hw
      rcases hrd _ hr with h | h | h | h
      · cases h
      · cases h
      · injection h with h2
        exact Or.inl h2
      · injection h with h2
        exact Or.inr h2

/-- Supporting configuration for the C5 witness: one reader admitted at
the initial table. -/
def c5WitnessConfig : GateConfig :=
  { eventSet := true, table := emptyState, writer := WriterPC.idle,
    readers := [ReaderPC.admitted emptyState] }

/-- Claim C5 witness: the configuration reached by admitting the single
reader of `initConfig emptyState 1` satisfies the no-torn-reads
conclusion. -/
theorem c5_witness :
    (emptyState = emptyState ∨ emptyState = finalTable [] [])
      ∧ (ReaderPC.admitted emptyState = ReaderPC.admitted emptyState →
          emptyState = c5WitnessConfig.table) :=
  c5_no_torn_reads [] [] emptyState 1 c5WitnessConfig
    (Relation.ReflTransGen.single
      (GateStep.readerAdmit (initConfig emptyState 1) 0 rfl rfl))
    (ReaderPC.admitted emptyState) (List.mem_singleton.mpr rfl)
    emptyState (Or.inl rfl)

/-- Claim C9 amended: the same-package half of the claim is an invariant
of `update_single` — every entry ever appended to a parent's
`attributes` has that parent's package, because the append is guarded by
`parent.package == package_name` and the appended entry's package is
`package_name`.  The dotted-path half is corrected by the counterexample:
the parent key is the text before the *last* dot, which for an undotted
canonical name is the name itself, so such an entry is appended to its
own `attributes`. -/
theorem c9_amended_children_same_package (priority : List String)
    (s : DocState) (p b : String) (inv : InventoryDict)
    (h : stateOK s) : stateOK (update_single priority s p b inv) := by
  unfold update_single
  exact foldl_preserves stateOK _
    (fun a gi ha =>
      foldl_preserves stateOK _
        (fun a2 e ha2 => stateOK_processSymbol priority p b gi.1 a2 e ha2)
        gi.2 a ha)
    inv _ h

/-- Claim C9 witness: the invariant evaluated after registering a parent
and a dotted child from the empty state. -/
theorem c9_amended_witness :
    stateOK (update_single [] emptyState "p" "u/"
      [("py:class", [("pkg", "a#b"), ("pkg.sub", "c#d")])]) :=
  c9_amended_children_same_package [] emptyState "p" "u/"
    [("py:class", [("pkg", "a#b"), ("pkg.sub", "c#d")])]
    (fun q hq => by simp [emptyState] at hq)

/-- Claim C6 counterexample: the exact-match condition is
`name.lower() == query` with the query *not* lower-cased, so for the
query `"Widget"` the candidate `"Widget"` (lower-cased to `"widget"`)
does not receive the claimed `+50` case-insensitive-equality boost; it
only receives the `+20` substring boost (base 100 becomes 120, not 170). -/
theorem c6_no_case_insensitive_boost :
    tweakStage [("Widget", 100)] "Widget" = [("Widget", 120)]
      ∧ ¬ tweakStage [("Widget", 100)] "Widget" = [("Widget", 170)] := by
  constructor
  · decide
  · decide

/-- Claim C6 amended: the `+50` boost fires exactly when the lower-cased
candidate equals the query as typed (so only all-lower-case queries can
trigger it), the `+20` substring boost is as claimed, the candidates are
ordered by descending boosted score with ties kept in their extraction
order (CPython's `sorted` is stable: the equal-scored candidates of
every score appear in their original order), and cutting at the
threshold on the sorted list excludes exactly the candidates below it.
For the concrete scenario, `"Widget"` is still ranked first (by base
score and the `+20` boost), and with an all-lower-case query `"widget"`
the `+50` boost does fire. -/
theorem c6_amended_autocomplete :
    (∀ (fz : List (String × ℤ)) (q : String),
        tweakStage fz q
          = fz.map (fun nv =>
              (nv.1,
                nv.2 + (if strLower nv.1 == q then (50 : ℤ) else 0)
                  + (if strContainsSub (strLower q) (strLower nv.1)
                      then (20 : ℤ) else 0))))
    ∧ (∀ (fz : List (String × ℤ)) (q : String),
        List.Sorted scoreGE (sortDesc (tweakStage fz q)))
    ∧ (∀ (l : List (String × ℤ)) (v : ℤ),
        (sortDesc l).filter (fun p => decide (p.2 = v))
          = l.filter (fun p => decide (p.2 = v)))
    ∧ sortDesc [("alpha", 5), ("mid", 7), ("omega", 5)]
        = [("mid", 7), ("alpha", 5), ("omega", 5)]
    ∧ (∀ (l : List (String × ℤ)) (th : ℤ),
        (sortDesc l).takeWhile (fun p => !(decide (p.2 < th)))
          = (sortDesc l).filter (fun p => !(decide (p.2 < th))))
    ∧ docsAutocompleteTail
        [("Widget", 100), ("widget_factory", 86), ("gadget", 50)]
        "Widget" 45 false
      = ["Widget", "widget_factory", "gadget"]
    ∧ tweakStage [("Widget", 100)] "widget" = [("Widget", 170)] := by
  refine ⟨?_, ?_, ?_, ?_, ?_, ?_, ?_⟩
  · intro fz q
    unfold tweakStage
    apply List.map_congr_left
    intro nv _
    by_cases h1 : (strLower nv.1 == q) = true
      <;> by_cases h2 : strContainsSub (strLower q) (strLower nv.1) = true
      <;> simp [h1, h2]
  · intro fz q
    exact sorted_sortDesc (tweakStage fz q)
  · intro l v
    exact sortDesc_filter_stable v l
  · decide
  · intro l th
    exact takeWhile_eq_filter_of_sorted th (sortDesc l) (sorted_sortDesc l)
  · decide
  · decide

end MontyClaims

